import Mathlib

/-!
Shallow embedding of `prepare.py` (cosmoflow-benchmark data preparation
script) and verification of its specification claims.

Float values are never inspected or combined arithmetically by the script:
they are read, sliced, flattened and written back verbatim.  The embedding
therefore carries them as an opaque type parameter `α`, which makes
bit-identity claims exact statements about the transport of values.
-/

set_option linter.unusedVariables false

namespace CosmoPrep

/-- A 3-dimensional numpy-style array: a shape and a data function.
`data i j k` is meaningful for indices below the shape; values outside
the shape are irrelevant junk (numpy would fault, we never read them in
any theorem). -/
structure Vol3 (α : Type) where
  shape0 : Nat
  shape1 : Nat
  shape2 : Nat
  data : Nat → Nat → Nat → α

/-- Clamp one (possibly negative) Python/numpy slice bound into `[0, d]`
for an axis of length `d`, following Python slice semantics: a negative
bound counts from the end of the axis, and everything is clamped into
range. -/
def npClamp (d : Nat) (a : Int) : Nat :=
  if 0 ≤ a then min a.toNat d else ((d : Int) + a).toNat

/-- numpy basic slicing `x[i0:i1, j0:j1, k0:k1]`, as a view with its own
shape and re-based data function. -/
def slice3 {α : Type} (x : Vol3 α) (i0 i1 j0 j1 k0 k1 : Int) : Vol3 α :=
  { shape0 := npClamp x.shape0 i1 - npClamp x.shape0 i0
    shape1 := npClamp x.shape1 j1 - npClamp x.shape1 j0
    shape2 := npClamp x.shape2 k1 - npClamp x.shape2 k0
    data := fun a b c =>
      x.data (npClamp x.shape0 i0 + a) (npClamp x.shape1 j0 + b)
        (npClamp x.shape2 k0 + c) }

/-- Embedding of `split_universe(x, size)` from `prepare.py` (lines 47-57):
`n = x.shape[0] // size` (Python floor division), then a triple nested
loop over `i` (slowest), `j`, `k` (fastest) yielding
`x[istart:iend, jstart:jend, kstart:kend]` with `istart = i*size`,
`iend = (i+1)*size`, and likewise for `j` and `k`.  The generator is
materialised as the list of its yields. -/
def split_universe {α : Type} (x : Vol3 α) (size : Int) : List (Vol3 α) :=
  let n : Int := Int.fdiv (x.shape0 : Int) size
  (List.range n.toNat).flatMap fun (i : Nat) =>
    (List.range n.toNat).flatMap fun (j : Nat) =>
      (List.range n.toNat).map fun (k : Nat) =>
        slice3 x ((i : Int) * size) (((i : Int) + 1) * size)
          ((j : Int) * size) (((j : Int) + 1) * size)
          ((k : Int) * size) (((k : Int) + 1) * size)

/-- The block-index triple sitting at linear position `m` of the
enumeration when there are `n` blocks per axis (`i` slowest-varying,
`k` fastest-varying). -/
def blockIdx (n m : Nat) : Nat × Nat × Nat :=
  (m / (n * n), m / n % n, m % n)

/-- The cell `(a, b, c)` lies inside the axis-aligned block with index
triple `t` and edge length `S`. -/
def blockContains (S : Nat) (t : Nat × Nat × Nat) (a b c : Nat) : Prop :=
  t.1 * S ≤ a ∧ a < (t.1 + 1) * S ∧
  t.2.1 * S ≤ b ∧ b < (t.2.1 + 1) * S ∧
  t.2.2 * S ≤ c ∧ c < (t.2.2 + 1) * S

/-! ### Strings and file names

Python strings are embedded as `List Char`. -/

/-- The character for decimal digit `d` (`d < 10`). -/
def digitChar (d : Nat) : Char := Char.ofNat (48 + d)

/-- Decimal digit characters of `n`, most significant first, with explicit
fuel (empty for `n = 0`).  `natDecAux fuel n` is correct whenever
`n ≤ fuel`. -/
def natDecAux : Nat → Nat → List Char
  | 0, _ => []
  | _ + 1, 0 => []
  | fuel + 1, n + 1 =>
    natDecAux fuel ((n + 1) / 10) ++ [digitChar ((n + 1) % 10)]

/-- Decimal digit characters of `n`, most significant first (empty for
`n = 0`, as Python's `'%i'` never produces that case without padding). -/
def natDec (n : Nat) : List Char := natDecAux n n

/-- Python `'%03i' % i` for a non-negative `i`: the decimal digits of `i`
left-padded with zeros to width 3. -/
def pad3 (i : Nat) : List Char :=
  List.replicate (3 - (natDec i).length) '0' ++ natDec i

/-- Python `s.replace(old, new)` for a non-empty `old`: replace all
non-overlapping occurrences of `old`, scanning left to right.  (The
script only calls this with `old = '.hdf5'`.) -/
def pyReplace (s old new : List Char) : List Char :=
  match s with
  | [] => []
  | c :: rest =>
    if h : old ≠ [] ∧ old.isPrefixOf (c :: rest) then
      new ++ pyReplace ((c :: rest).drop old.length) old new
    else
      c :: pyReplace rest old new
termination_by s.length
decreasing_by
  · have hlen : 0 < old.length := List.length_pos.2 h.1
    simp only [List.length_drop, List.length_cons]
    omega
  · simp

/-- Python `os.path.basename`: everything after the last `'/'`. -/
def osBasename (p : List Char) : List Char :=
  (p.reverse.takeWhile (fun c => c ≠ '/')).reverse

/-- Python `os.path.join` for two components. -/
def osJoin (a b : List Char) : List Char :=
  if b.head? = some '/' then b
  else if a = [] then b
  else if a.getLast? = some '/' then a ++ b
  else a ++ '/' :: b

/-- The replacement string `'_%03i.tfrecord' % i` used in
`prepare.py` line 81. -/
def recordSuffix (i : Nat) : List Char :=
  '_' :: (pad3 i ++ ".tfrecord".toList)

/-- The output file name computed by `process_file` (lines 78-82):
`os.path.join(output_dir, os.path.basename(input_file).replace('.hdf5', '_%03i.tfrecord' % i))`. -/
def output_file_name (output_dir input_file : List Char) (i : Nat) : List Char :=
  osJoin output_dir
    (pyReplace (osBasename input_file) ".hdf5".toList (recordSuffix i))

/-- Does `old` occur as a contiguous substring of `s`?  Specification
helper for reasoning about `pyReplace` occurrences. -/
def containsSub : List Char → List Char → Bool
  | [], old => old.isEmpty
  | c :: rest, old => old.isPrefixOf (c :: rest) || containsSub rest old

/-- Decode a decimal digit string back to a number; specification helper,
a left inverse of `pad3` used to prove index formatting injective. -/
def padDecode (s : List Char) : Nat :=
  s.foldl (fun acc c => acc * 10 + (c.toNat - 48)) 0

/-! ### Records -/

/-- A `tf.train.Example`: named float-sequence features, with the float
payload carried opaquely. -/
structure TfExample (α : Type) where
  features : List (String × List α)

/-- numpy `x.flatten()` on a 3D array: row-major (C order), last axis
fastest. -/
def flatten3 {α : Type} (x : Vol3 α) : List α :=
  (List.range x.shape0).flatMap fun i =>
    (List.range x.shape1).flatMap fun j =>
      (List.range x.shape2).map fun k => x.data i j k

/-- The record built by `process_file` (lines 72-76): feature dict with
`x = xi.flatten()` and `y = y`. -/
def encodeExample {α : Type} (xi : Vol3 α) (y : List α) : TfExample α :=
  ⟨[("x", flatten3 xi), ("y", y)]⟩

/-- Modelled from the spec: the record decoder is not part of `src/`
(reading TFRecords back happens in the training pipeline / TensorFlow
library).  Per the spec, a Record has "two named fields, `x`
(variable-length float sequence) and `y` (variable-length float
sequence)"; decoding reads the two named fields back. -/
def decodeExample {α : Type} (r : TfExample α) : Option (List α) × Option (List α) :=
  (r.features.lookup "x", r.features.lookup "y")

/-! ### Processing one file -/

/-- Embedding of `process_file(input_file, output_dir, sample_size)` (lines 63-86).
The filesystem is embedded as `env`, mapping a path to the `(full,
unitPar)` datasets `read_hdf5` returns, or `none` when reading fails.
The result is the ordered list of `(output file name, record)` writes,
or `none` when the read raised. -/
def process_file {α : Type} (env : List Char → Option (Vol3 α × List α))
    (input_file output_dir : List Char) (sample_size : Int) :
    Option (List (List Char × TfExample α)) :=
  match env input_file with
  | none => none
  | some (x, y) =>
    some ((split_universe x sample_size).enum.map fun p =>
      (output_file_name output_dir input_file p.1, encodeExample p.2 y))

/-! ### File discovery -/

/-- Python string `<`/`≤` on equal-type operands: lexicographic by code
point; `sorted` uses it. -/
def lexLe : List Char → List Char → Bool
  | [], _ => true
  | _ :: _, [] => false
  | a :: as, b :: bs =>
    if a.toNat < b.toNat then true
    else if a.toNat = b.toNat then lexLe as bs
    else false

/-- The `f.endswith('hdf5')` test from `find_files` (line 34). -/
def endsWithHdf5 (f : List Char) : Bool :=
  "hdf5".toList.isSuffixOf f

/-- Python `files[:m]` (list slice with a single stop bound, which may be
negative: then it counts from the end, clamped at zero). -/
def pySliceTo {α : Type} (l : List α) (m : Int) : List α :=
  l.take (if 0 ≤ m then m.toNat else ((l.length : Int) + m).toNat)

/-- Embedding of `find_files(input_dir, max_files)` (lines 30-39).  The filesystem
walk is embedded as the list of `(subdir, subfiles)` pairs `os.walk`
yields, in whatever order the OS produces them; the function collects
`os.path.join(subdir, f)` for each `f` ending in `'hdf5'`, sorts, and
applies the `files[:max_files]` cap when given. -/
def find_files (walk : List (List Char × List (List Char)))
    (max_files : Option Int) : List (List Char) :=
  let files := walk.flatMap fun e =>
    (e.2.filter endsWithHdf5).map fun f => osJoin e.1 f
  let files := files.mergeSort lexLe
  match max_files with
  | none => files
  | some m => pySliceTo files m

/-! ### Task splitting and the main driver -/

/-- numpy's division points for `array_split`: chunk `t` starts at
`t * (L / T) + min t (L % T)`. -/
def divPoint (L T t : Nat) : Nat := t * (L / T) + min t (L % T)

/-- Embedding of `np.array_split(l, T)` for `T ≥ 1`: `T` contiguous chunks, the first
`L % T` of size `L / T + 1`, the rest of size `L / T`. -/
def npArraySplit {α : Type} (l : List α) (T : Nat) : List (List α) :=
  (List.range T).map fun t =>
    (l.drop (divPoint l.length T t)).take
      (divPoint l.length T (t + 1) - divPoint l.length T t)

/-- Python list indexing `l[i]`, with negative indices counting from the
end; out of range raises (`none`). -/
def pyIndex {α : Type} (l : List α) (i : Int) : Option α :=
  let j : Int := if 0 ≤ i then i else (l.length : Int) + i
  if 0 ≤ j ∧ j < (l.length : Int) then l[j.toNat]? else none

/-- The command-line arguments of `prepare.py` (lines 17-28).  `argparse`
with `type=int` performs no range validation: any integer value is
accepted for `--sample-size`, `--task`, `--n-tasks`, hence plain `Int`
fields with no constraint. -/
structure Args where
  output_dir : List Char
  verbose : Bool
  sample_size : Int
  max_files : Option Int
  n_workers : Int
  task : Int
  n_tasks : Int

/-- Embedding of `main()` (lines 88-114), from file discovery onward: discover files,
`np.array_split` them into `n_tasks` chunks (`ValueError` for a
non-positive section count), select chunk `task` (`IndexError` when out
of range), construct the worker pool — `mp.Pool(processes=n_workers)`
on line 109 raises `ValueError` when `n_workers < 1` — and run
`process_file` on each file of the chunk (beyond that startup check the
pool adds no observable behaviour for the written records).  `none`
models an unhandled exception (non-zero exit); `some ws` models a clean
zero exit having performed exactly the writes `ws`. -/
def main_run {α : Type} (walk : List (List Char × List (List Char)))
    (env : List Char → Option (Vol3 α × List α)) (args : Args) :
    Option (List (List Char × TfExample α)) :=
  if args.n_tasks ≤ 0 then none
  else
    let files := find_files walk args.max_files
    match pyIndex (npArraySplit files args.n_tasks.toNat) args.task with
    | none => none
    | some myFiles =>
      if args.n_workers < 1 then none
      else
        (myFiles.mapM fun f =>
          process_file env f args.output_dir args.sample_size).map List.flatten

/-! ## Lemmas -/

lemma fdiv_coe (m k : Nat) :
    Int.fdiv (m : Int) (k : Int) = ((m / k : Nat) : Int) := by
  cases m with
  | zero => show Int.fdiv 0 (k : Int) = _; rw [Nat.zero_div]; rfl
  | succ m => rfl

lemma fdiv_neg_toNat (m : Nat) (s : Int) (hs : s < 0) :
    (Int.fdiv (m : Int) s).toNat = 0 := by
  cases s with
  | ofNat n => rw [Int.ofNat_eq_natCast] at hs; omega
  | negSucc k => cases m <;> rfl

lemma length_flatMap_const {α β : Type} (l : List α) (g : α → List β) (L : Nat)
    (h : ∀ a ∈ l, (g a).length = L) : (l.flatMap g).length = l.length * L := by
  induction l with
  | nil => simp
  | cons a t ih =>
    simp only [List.flatMap_cons, List.length_append, List.length_cons]
    rw [h a (by simp), ih (fun b hb => h b (by simp [hb]))]
    ring

lemma flatMap_getElem? {α β : Type} (l : List α) (g : α → List β) (L i r : Nat)
    (hL : ∀ a ∈ l, (g a).length = L) (hi : i < l.length) (hr : r < L) :
    (l.flatMap g)[i * L + r]? = (g (l.get ⟨i, hi⟩))[r]? := by
  induction l generalizing i with
  | nil => simp at hi
  | cons a t ih =>
    cases i with
    | zero =>
      have ha : (g a).length = L := hL a (by simp)
      simp only [List.flatMap_cons, Nat.zero_mul, Nat.zero_add]
      rw [List.getElem?_append_left (by omega)]
      rfl
    | succ i' =>
      have ha : (g a).length = L := hL a (by simp)
      have hi' : i' < t.length := by simpa using hi
      simp only [List.flatMap_cons]
      have hperm : (i' + 1) * L + r = L + (i' * L + r) := by ring
      rw [List.getElem?_append_right (by rw [ha]; omega)]
      have harith : (i' + 1) * L + r - (g a).length = i' * L + r := by
        rw [ha]; omega
      rw [harith, ih i' (fun b hb => hL b (List.mem_cons_of_mem a hb)) hi']
      rfl

lemma encode_lt (n i j k : Nat) (hi : i < n) (hj : j < n) (hk : k < n) :
    i * (n * n) + j * n + k < n ^ 3 := by
  calc i * (n * n) + j * n + k
      < i * (n * n) + j * n + n := add_lt_add_left hk _
    _ = i * (n * n) + (j + 1) * n := by ring
    _ ≤ i * (n * n) + n * n :=
        add_le_add_left (mul_le_mul_right' (Nat.succ_le_of_lt hj) n) _
    _ = (i + 1) * (n * n) := by ring
    _ ≤ n * (n * n) := mul_le_mul_right' (Nat.succ_le_of_lt hi) (n * n)
    _ = n ^ 3 := by ring

lemma blockIdx_encode (n i j k : Nat) (hi : i < n) (hj : j < n) (hk : k < n) :
    blockIdx n (i * (n * n) + j * n + k) = (i, j, k) := by
  have hn : 0 < n := by omega
  have hjk : j * n + k < n * n := by
    calc j * n + k < j * n + n := add_lt_add_left hk _
      _ = (j + 1) * n := by ring
      _ ≤ n * n := mul_le_mul_right' (Nat.succ_le_of_lt hj) n
  unfold blockIdx
  refine Prod.ext ?_ (Prod.ext ?_ ?_)
  · show (i * (n * n) + j * n + k) / (n * n) = i
    have he : i * (n * n) + j * n + k = (n * n) * i + (j * n + k) := by ring
    rw [he, Nat.mul_add_div (by positivity), Nat.div_eq_of_lt hjk]
    omega
  · show (i * (n * n) + j * n + k) / n % n = j
    have he : i * (n * n) + j * n + k = n * (i * n + j) + k := by ring
    rw [he, Nat.mul_add_div hn, Nat.div_eq_of_lt hk]
    have he2 : i * n + j + 0 = j + i * n := by ring
    rw [he2, Nat.add_mul_mod_self_right, Nat.mod_eq_of_lt hj]
  · show (i * (n * n) + j * n + k) % n = k
    have he : i * (n * n) + j * n + k = k + (i * n + j) * n := by ring
    rw [he, Nat.add_mul_mod_self_right, Nat.mod_eq_of_lt hk]

lemma blockIdx_decode (n m : Nat) :
    (blockIdx n m).1 * (n * n) + (blockIdx n m).2.1 * n + (blockIdx n m).2.2 = m := by
  unfold blockIdx
  have h2 : m / n * n + m % n = m := Nat.div_add_mod' m n
  have h3 : m / n / n * n + m / n % n = m / n := Nat.div_add_mod' (m / n) n
  rw [← Nat.div_div_eq_div_mul]
  calc m / n / n * (n * n) + m / n % n * n + m % n
      = (m / n / n * n + m / n % n) * n + m % n := by ring
    _ = m / n * n + m % n := by rw [h3]
    _ = m := h2

lemma blockIdx_lt (n m : Nat) (hm : m < n ^ 3) :
    (blockIdx n m).1 < n ∧ (blockIdx n m).2.1 < n ∧ (blockIdx n m).2.2 < n := by
  have hn : 0 < n := by
    rcases Nat.eq_zero_or_pos n with h | h
    · subst h; simp at hm
    · exact h
  unfold blockIdx
  refine ⟨?_, Nat.mod_lt _ hn, Nat.mod_lt _ hn⟩
  rw [Nat.div_lt_iff_lt_mul (by positivity)]
  rw [show n * (n * n) = n ^ 3 by ring]
  exact hm

lemma block_coverage (n S a b c : Nat) (hS : 0 < S)
    (ha : a < n * S) (hb : b < n * S) (hc : c < n * S) :
    ∃! m : Nat, m < n ^ 3 ∧ blockContains S (blockIdx n m) a b c := by
  have hn : 0 < n := by
    rcases Nat.eq_zero_or_pos n with h | h
    · subst h; simp at ha
    · exact h
  have hdivlt : ∀ v : Nat, v < n * S → v / S < n := fun v hv => by
    rw [Nat.div_lt_iff_lt_mul hS]; exact hv
  have hcont : ∀ v : Nat, v / S * S ≤ v ∧ v < (v / S + 1) * S := fun v => by
    have h1 : v / S * S + v % S = v := Nat.div_add_mod' v S
    have h2 := Nat.mod_lt v hS
    constructor
    · omega
    · rw [show (v / S + 1) * S = v / S * S + S by ring]
      omega
  refine ⟨a / S * (n * n) + b / S * n + c / S, ⟨?_, ?_⟩, ?_⟩
  · exact encode_lt n _ _ _ (hdivlt a ha) (hdivlt b hb) (hdivlt c hc)
  · rw [blockIdx_encode n _ _ _ (hdivlt a ha) (hdivlt b hb) (hdivlt c hc)]
    exact ⟨(hcont a).1, (hcont a).2, (hcont b).1, (hcont b).2, (hcont c).1, (hcont c).2⟩
  · rintro m ⟨hm, hcm⟩
    obtain ⟨hi, hj, hk⟩ := blockIdx_lt n m hm
    obtain ⟨c1, c2, c3, c4, c5, c6⟩ := hcm
    have e1 : a / S = (blockIdx n m).1 := Nat.div_eq_of_lt_le c1 c2
    have e2 : b / S = (blockIdx n m).2.1 := Nat.div_eq_of_lt_le c3 c4
    have e3 : c / S = (blockIdx n m).2.2 := Nat.div_eq_of_lt_le c5 c6
    rw [e1, e2, e3, blockIdx_decode]

lemma jk_lt (n j k : Nat) (hj : j < n) (hk : k < n) : j * n + k < n * n := by
  calc j * n + k < j * n + n := add_lt_add_left hk _
    _ = (j + 1) * n := by ring
    _ ≤ n * n := mul_le_mul_right' (Nat.succ_le_of_lt hj) n

lemma length_split_universe {α : Type} (x : Vol3 α) (size : Int) :
    (split_universe x size).length =
      ((Int.fdiv (x.shape0 : Int) size).toNat) ^ 3 := by
  unfold split_universe
  dsimp only
  set n : Nat := (Int.fdiv (x.shape0 : Int) size).toNat with hn
  rw [length_flatMap_const _ _ (n * n) ?_, List.length_range]
  · ring
  · intro a _
    rw [length_flatMap_const _ _ n (fun b _ => by
      rw [List.length_map, List.length_range]), List.length_range]

lemma split_universe_get {α : Type} (x : Vol3 α) (S i j k : Nat)
    (hi : i < x.shape0 / S) (hj : j < x.shape0 / S) (hk : k < x.shape0 / S) :
    (split_universe x (S : Int))[i * (x.shape0 / S * (x.shape0 / S)) +
        j * (x.shape0 / S) + k]? =
      some (slice3 x ((i * S : Nat) : Int) (((i + 1) * S : Nat) : Int)
        ((j * S : Nat) : Int) (((j + 1) * S : Nat) : Int)
        ((k * S : Nat) : Int) (((k + 1) * S : Nat) : Int)) := by
  set n : Nat := x.shape0 / S with hn
  have hsplit : split_universe x (S : Int) =
      (List.range n).flatMap fun (i : Nat) =>
        (List.range n).flatMap fun (j : Nat) =>
          (List.range n).map fun (k : Nat) =>
            slice3 x ((i : Int) * S) (((i : Int) + 1) * S)
              ((j : Int) * S) (((j : Int) + 1) * S)
              ((k : Int) * S) (((k : Int) + 1) * S) := by
    unfold split_universe
    dsimp only
    rw [fdiv_coe, Int.toNat_natCast]
  rw [hsplit]
  have hassoc : i * (n * n) + j * n + k = i * (n * n) + (j * n + k) := by ring
  rw [hassoc]
  rw [flatMap_getElem? _ _ (n * n) i (j * n + k)
    (fun a _ => by
      rw [length_flatMap_const _ _ n (fun b _ => by
        rw [List.length_map, List.length_range]), List.length_range])
    (by simpa using hi) (jk_lt n j k hj hk)]
  rw [flatMap_getElem? _ _ n j k
    (fun a _ => by rw [List.length_map, List.length_range])
    (by simpa using hj) hk]
  rw [List.getElem?_map]
  have hrange : ∀ (m : Nat) (hm : m < n),
      (List.range n).get ⟨m, by simpa using hm⟩ = m := by
    intro m hm
    rw [List.get_eq_getElem, List.getElem_range]
  rw [hrange i hi, hrange j hj]
  rw [List.getElem?_range hk]
  simp only [Option.map_some']
  congr 1

lemma npClamp_coe (E v : Nat) (hv : v ≤ E) : npClamp E ((v : Nat) : Int) = v := by
  unfold npClamp
  rw [if_pos (by positivity), Int.toNat_natCast]
  exact min_eq_left hv

/-- Claim C1: for a cubic volume of edge `E` and positive sample size `S`,
`split_universe` yields exactly `(E / S)^3` sub-cubes, each of shape
`(S, S, S)`; the `m`-th sub-cube reads exactly the cells of block
`blockIdx (E/S) m`; when restricted to the covered region `[0, (E/S)*S)^3`
every cell lies in exactly one block (no overlap, no gaps), and cells of
the remainder region (when `E` is not a multiple of `S`) lie in no block
(silent exclusion, no error, no partial cubes). -/
theorem split_universe_partition {α : Type} (x : Vol3 α) (E S : Nat) (hS : 0 < S)
    (h0 : x.shape0 = E) (h1 : x.shape1 = E) (h2 : x.shape2 = E) :
    (split_universe x (S : Int)).length = (E / S) ^ 3 ∧
    (∀ sub ∈ split_universe x (S : Int),
      sub.shape0 = S ∧ sub.shape1 = S ∧ sub.shape2 = S) ∧
    (∀ (m : Nat) (hm : m < (split_universe x (S : Int)).length),
      ∀ p q r : Nat, p < S → q < S → r < S →
        ((split_universe x (S : Int)).get ⟨m, hm⟩).data p q r =
          x.data ((blockIdx (E / S) m).1 * S + p)
                 ((blockIdx (E / S) m).2.1 * S + q)
                 ((blockIdx (E / S) m).2.2 * S + r)) ∧
    (∀ a b c : Nat, a < E / S * S → b < E / S * S → c < E / S * S →
      ∃! m : Nat, m < (E / S) ^ 3 ∧ blockContains S (blockIdx (E / S) m) a b c) ∧
    (∀ a b c m : Nat, m < (E / S) ^ 3 →
      (E / S * S ≤ a ∨ E / S * S ≤ b ∨ E / S * S ≤ c) →
      ¬ blockContains S (blockIdx (E / S) m) a b c) := by
  have hlen : (split_universe x (S : Int)).length = (E / S) ^ 3 := by
    rw [length_split_universe, h0, fdiv_coe, Int.toNat_natCast]
  have hblock : ∀ v : Nat, v < E / S → v * S ≤ E ∧ (v + 1) * S ≤ E := by
    intro v hv
    have hv1 : (v + 1) * S ≤ E / S * S := mul_le_mul_right' (Nat.succ_le_of_lt hv) S
    have hv2 : E / S * S ≤ E := Nat.div_mul_le_self E S
    have hv3 : v * S ≤ (v + 1) * S := mul_le_mul_right' (by omega) S
    exact ⟨le_trans hv3 (le_trans hv1 hv2), le_trans hv1 hv2⟩
  refine ⟨hlen, ?_, ?_, ?_, ?_⟩
  · -- shapes
    intro sub hsub
    unfold split_universe at hsub
    dsimp only at hsub
    rw [h0, fdiv_coe, Int.toNat_natCast] at hsub
    simp only [List.mem_flatMap, List.mem_map, List.mem_range] at hsub
    obtain ⟨i, hi, j, hj, k, hk, rfl⟩ := hsub
    have hcast : ∀ v : Nat, ((v : Int) * S) = (((v * S : Nat) : Int)) := by
      intro v; push_cast; ring
    have hcast1 : ∀ v : Nat, (((v : Int) + 1) * S) = ((((v + 1) * S : Nat) : Int)) := by
      intro v; push_cast; ring
    refine ⟨?_, ?_, ?_⟩
    · show npClamp x.shape0 (((i : Int) + 1) * S) - npClamp x.shape0 ((i : Int) * S) = S
      rw [hcast, hcast1, h0, npClamp_coe E _ (hblock i hi).1,
        npClamp_coe E _ (hblock i hi).2]
      rw [show (i + 1) * S = i * S + S by ring]
      exact Nat.add_sub_cancel_left _ _
    · show npClamp x.shape1 (((j : Int) + 1) * S) - npClamp x.shape1 ((j : Int) * S) = S
      rw [hcast, hcast1, h1, npClamp_coe E _ (hblock j hj).1,
        npClamp_coe E _ (hblock j hj).2]
      rw [show (j + 1) * S = j * S + S by ring]
      exact Nat.add_sub_cancel_left _ _
    · show npClamp x.shape2 (((k : Int) + 1) * S) - npClamp x.shape2 ((k : Int) * S) = S
      rw [hcast, hcast1, h2, npClamp_coe E _ (hblock k hk).1,
        npClamp_coe E _ (hblock k hk).2]
      rw [show (k + 1) * S = k * S + S by ring]
      exact Nat.add_sub_cancel_left _ _
  · -- data of the m-th sub-cube
    intro m hm p q r hp hq hr
    rw [hlen] at hm
    obtain ⟨hi, hj, hk⟩ := blockIdx_lt (E / S) m hm
    set i := (blockIdx (E / S) m).1
    set j := (blockIdx (E / S) m).2.1
    set k := (blockIdx (E / S) m).2.2
    have hdec : i * (E / S * (E / S)) + j * (E / S) + k = m :=
      blockIdx_decode (E / S) m
    have hget := split_universe_get x S i j k (by rw [h0]; exact hi)
      (by rw [h0]; exact hj) (by rw [h0]; exact hk)
    rw [h0] at hget
    rw [hdec] at hget
    have hm' : m < (split_universe x (S : Int)).length := by rw [hlen]; exact hm
    have hval : (split_universe x (S : Int)).get ⟨m, hm'⟩ =
        slice3 x ((i * S : Nat) : Int) (((i + 1) * S : Nat) : Int)
          ((j * S : Nat) : Int) (((j + 1) * S : Nat) : Int)
          ((k * S : Nat) : Int) (((k + 1) * S : Nat) : Int) := by
      have := List.getElem?_eq_getElem hm'
      rw [List.get_eq_getElem]
      rw [this] at hget
      exact Option.some.inj hget
    rw [hval]
    show x.data (npClamp x.shape0 ((i * S : Nat) : Int) + p)
        (npClamp x.shape1 ((j * S : Nat) : Int) + q)
        (npClamp x.shape2 ((k * S : Nat) : Int) + r) = _
    rw [h0, h1, h2, npClamp_coe E _ (hblock i hi).1, npClamp_coe E _ (hblock j hj).1,
      npClamp_coe E _ (hblock k hk).1]
  · -- exact coverage of the covered region
    intro a b c ha hb hc
    exact block_coverage (E / S) S a b c hS ha hb hc
  · -- remainder cells lie in no block
    intro a b c m hm hout hcont
    obtain ⟨hi, hj, hk⟩ := blockIdx_lt (E / S) m hm
    obtain ⟨c1, c2, c3, c4, c5, c6⟩ := hcont
    rcases hout with h | h | h
    · have : ((blockIdx (E / S) m).1 + 1) * S ≤ E / S * S :=
        mul_le_mul_right' (Nat.succ_le_of_lt hi) S
      linarith
    · have : ((blockIdx (E / S) m).2.1 + 1) * S ≤ E / S * S :=
        mul_le_mul_right' (Nat.succ_le_of_lt hj) S
      linarith
    · have : ((blockIdx (E / S) m).2.2 + 1) * S ≤ E / S * S :=
        mul_le_mul_right' (Nat.succ_le_of_lt hk) S
      linarith

/-- Claim C2: `split_universe` enumerates block indices `(i, j, k)` in
the deterministic nested order with `i` slowest-varying and `k`
fastest-varying: the element at linear position `i*n² + j*n + k`
(`n = E / S`) is exactly the `(i, j, k)` block slice.  In particular,
for `E = 2 S` the 8 sub-cubes appear in index order
`(0,0,0), (0,0,1), (0,1,0), (0,1,1), (1,0,0), (1,0,1), (1,1,0), (1,1,1)`. -/
theorem split_universe_order {α : Type} (x : Vol3 α) (E S : Nat) (hS : 0 < S)
    (h0 : x.shape0 = E) :
    (∀ i j k : Nat, i < E / S → j < E / S → k < E / S →
      (split_universe x (S : Int))[i * (E / S * (E / S)) + j * (E / S) + k]? =
        some (slice3 x ((i * S : Nat) : Int) (((i + 1) * S : Nat) : Int)
          ((j * S : Nat) : Int) (((j + 1) * S : Nat) : Int)
          ((k * S : Nat) : Int) (((k + 1) * S : Nat) : Int))) ∧
    (E = 2 * S →
      split_universe x (S : Int) =
        [slice3 x 0 (S : Int) 0 (S : Int) 0 (S : Int),
         slice3 x 0 (S : Int) 0 (S : Int) (S : Int) (2 * (S : Int)),
         slice3 x 0 (S : Int) (S : Int) (2 * (S : Int)) 0 (S : Int),
         slice3 x 0 (S : Int) (S : Int) (2 * (S : Int)) (S : Int) (2 * (S : Int)),
         slice3 x (S : Int) (2 * (S : Int)) 0 (S : Int) 0 (S : Int),
         slice3 x (S : Int) (2 * (S : Int)) 0 (S : Int) (S : Int) (2 * (S : Int)),
         slice3 x (S : Int) (2 * (S : Int)) (S : Int) (2 * (S : Int)) 0 (S : Int),
         slice3 x (S : Int) (2 * (S : Int)) (S : Int) (2 * (S : Int)) (S : Int)
           (2 * (S : Int))]) := by
  constructor
  · intro i j k hi hj hk
    have := split_universe_get x S i j k (by rw [h0]; exact hi)
      (by rw [h0]; exact hj) (by rw [h0]; exact hk)
    rw [h0] at this
    exact this
  · intro hE
    have hn : E / S = 2 := by
      rw [hE]; exact Nat.mul_div_cancel 2 hS
    unfold split_universe
    dsimp only
    rw [h0, fdiv_coe, Int.toNat_natCast, hn]
    rw [show (2 : Nat) = 1 + 1 by rfl, List.range_succ, List.range_succ,
      List.range_zero]
    simp only [List.nil_append, List.flatMap_cons, List.flatMap_nil,
      List.map_cons, List.map_nil, List.cons_append, List.nil_append,
      List.append_nil]
    norm_num

/-- Witness for `split_universe_partition`: a concrete 4×4×4 volume with
sample size 2. -/
theorem split_universe_partition_witness :
    (split_universe (⟨4, 4, 4, fun i j k => (i, j, k)⟩ : Vol3 (Nat × Nat × Nat))
      ((2 : Nat) : Int)).length = (4 / 2) ^ 3 :=
  (split_universe_partition
    (⟨4, 4, 4, fun i j k => (i, j, k)⟩ : Vol3 (Nat × Nat × Nat))
    4 2 (by decide) rfl rfl rfl).1

/-- Witness for `split_universe_order`: in the 4×4×4 volume with sample
size 2, position `1·4 + 0·2 + 1 = 5` holds the `(1, 0, 1)` block. -/
theorem split_universe_order_witness :
    (split_universe (⟨4, 4, 4, fun i j k => (i, j, k)⟩ : Vol3 (Nat × Nat × Nat))
      ((2 : Nat) : Int))[1 * (4 / 2 * (4 / 2)) + 0 * (4 / 2) + 1]? =
      some (slice3 (⟨4, 4, 4, fun i j k => (i, j, k)⟩ : Vol3 (Nat × Nat × Nat))
        ((1 * 2 : Nat) : Int) (((1 + 1) * 2 : Nat) : Int)
        ((0 * 2 : Nat) : Int) (((0 + 1) * 2 : Nat) : Int)
        ((1 * 2 : Nat) : Int) (((1 + 1) * 2 : Nat) : Int)) :=
  (split_universe_order _ 4 2 (by decide) rfl).1 1 0 1
    (by decide) (by decide) (by decide)

/-- Claim C10: for a negative sample size `S`, `split_universe` yields no
sub-cubes — Python floor division `E // S` is non-positive, so every
`range` loop is empty — and `process_file` on a readable source file
completes without error, producing no output files. -/
theorem negative_sample_size_empty {α : Type} (x : Vol3 α) (E : Nat) (S : Int)
    (env : List Char → Option (Vol3 α × List α)) (f od : List Char) (y : List α)
    (hE : 0 < E) (hx : x.shape0 = E) (hS : S < 0) (henv : env f = some (x, y)) :
    split_universe x S = [] ∧ process_file env f od S = some [] := by
  have hempty : split_universe x S = [] := by
    unfold split_universe
    dsimp only
    rw [fdiv_neg_toNat _ _ hS]
    simp
  refine ⟨hempty, ?_⟩
  simp [process_file, henv, hempty]

/-- Witness for `negative_sample_size_empty` at a concrete 4×4×4 volume,
sample size `-2`. -/
theorem negative_sample_size_empty_witness :
    split_universe (⟨4, 4, 4, fun _ _ _ => (0 : Nat)⟩ : Vol3 Nat) (-2) = [] ∧
    process_file
      (fun _ => some ((⟨4, 4, 4, fun _ _ _ => (0 : Nat)⟩ : Vol3 Nat), [5]))
      "a.hdf5".toList "o".toList (-2) = some [] :=
  negative_sample_size_empty _ 4 (-2) _ _ "o".toList [5]
    (by decide) rfl (by decide) rfl

lemma divPoint_zero (L T : Nat) : divPoint L T 0 = 0 := by
  simp [divPoint]

lemma divPoint_last (L T : Nat) (hT : 0 < T) : divPoint L T T = L := by
  unfold divPoint
  rw [min_eq_right (le_of_lt (Nat.mod_lt _ hT))]
  exact Nat.div_add_mod L T

lemma divPoint_mono (L T : Nat) {t t' : Nat} (h : t ≤ t') :
    divPoint L T t ≤ divPoint L T t' :=
  add_le_add (mul_le_mul_right' h _) (min_le_min h (le_refl _))

lemma divPoint_succ (L T t : Nat) :
    divPoint L T (t + 1) =
      divPoint L T t + (L / T + (min (t + 1) (L % T) - min t (L % T))) := by
  unfold divPoint
  rw [show (t + 1) * (L / T) = t * (L / T) + L / T by ring]
  have hmin : min t (L % T) ≤ min (t + 1) (L % T) :=
    min_le_min (by omega) (le_refl _)
  generalize t * (L / T) = P at *
  generalize L / T = q at *
  generalize min (t + 1) (L % T) = m1 at *
  generalize min t (L % T) = m0 at *
  omega

lemma chunk_size (L T t : Nat) :
    divPoint L T (t + 1) - divPoint L T t =
      L / T + (if t < L % T then 1 else 0) := by
  rw [divPoint_succ]
  have hmin : min (t + 1) (L % T) - min t (L % T) =
      if t < L % T then 1 else 0 := by
    by_cases h : t < L % T
    · rw [if_pos h, min_eq_left (by omega : t + 1 ≤ L % T),
        min_eq_left (by omega : t ≤ L % T)]
      omega
    · rw [if_neg h, min_eq_right (by omega : L % T ≤ t + 1),
        min_eq_right (by omega : L % T ≤ t)]
      omega
  rw [hmin]
  exact Nat.add_sub_cancel_left _ _

lemma ceil_div_eq (L T : Nat) (hT : 0 < T) (hr : 0 < L % T) :
    (L + T - 1) / T = L / T + 1 := by
  have h3 : L % T < T := Nat.mod_lt _ hT
  have h4 : L + T - 1 = T * (L / T) + (L % T + T - 1) := by
    have h2 := Nat.div_add_mod L T
    generalize T * (L / T) = P at *
    omega
  rw [h4, Nat.mul_add_div hT]
  have h5 : (L % T + T - 1) / T = 1 :=
    Nat.div_eq_of_lt_le (by omega) (by omega)
  rw [h5]

lemma join_chunks {β : Type} (l : List β) (f : Nat → Nat) (T : Nat)
    (hmono : ∀ t t' : Nat, t ≤ t' → f t ≤ f t') (h0 : f 0 = 0) :
    ((List.range T).map fun t => (l.drop (f t)).take (f (t + 1) - f t)).flatten =
      l.take (f T) := by
  induction T with
  | zero => simp [h0]
  | succ T ih =>
    rw [List.range_succ, List.map_append, List.flatten_append]
    rw [ih]
    simp only [List.map_cons, List.map_nil, List.flatten_cons, List.flatten_nil,
      List.append_nil]
    have hle : f T ≤ f (T + 1) := hmono T (T + 1) (by omega)
    have : f (T + 1) = f T + (f (T + 1) - f T) := by omega
    rw [this, List.take_add, Nat.add_sub_cancel_left]

/-- Claim C4: `np.array_split(l, T)[task]`-style task partitioning: for
`T ≥ 1` tasks, the list is split into `T` contiguous chunks
(`chunk t = l[divPoint t : divPoint (t+1)]` with monotone division
points, hence pairwise disjoint index ranges), each chunk has size
`⌊L/T⌋` or `⌈L/T⌉`, and concatenating the chunks in task order
reproduces the original list exactly. -/
theorem array_split_partition {α : Type} (l : List α) (T : Nat) (hT : 1 ≤ T) :
    (npArraySplit l T).length = T ∧
    (npArraySplit l T).flatten = l ∧
    (∀ t : Nat, t < T →
      (npArraySplit l T)[t]? =
        some ((l.drop (divPoint l.length T t)).take
          (divPoint l.length T (t + 1) - divPoint l.length T t))) ∧
    (∀ t t' : Nat, t ≤ t' → divPoint l.length T t ≤ divPoint l.length T t') ∧
    (∀ c ∈ npArraySplit l T,
      c.length = l.length / T ∨ c.length = (l.length + T - 1) / T) := by
  have hT' : 0 < T := hT
  refine ⟨?_, ?_, ?_, ?_, ?_⟩
  · rw [npArraySplit, List.length_map, List.length_range]
  · rw [npArraySplit, join_chunks l _ T (fun t t' h => divPoint_mono _ _ h)
      (divPoint_zero _ _), divPoint_last _ _ hT', List.take_length]
  · intro t ht
    rw [npArraySplit, List.getElem?_map, List.getElem?_range ht, Option.map_some']
  · intro t t' h
    exact divPoint_mono _ _ h
  · intro c hc
    rw [npArraySplit] at hc
    simp only [List.mem_map, List.mem_range] at hc
    obtain ⟨t, ht, rfl⟩ := hc
    have hlen : ((l.drop (divPoint l.length T t)).take
        (divPoint l.length T (t + 1) - divPoint l.length T t)).length =
        divPoint l.length T (t + 1) - divPoint l.length T t := by
      rw [List.length_take, List.length_drop]
      have h1 : divPoint l.length T (t + 1) ≤ l.length := by
        calc divPoint l.length T (t + 1) ≤ divPoint l.length T T :=
              divPoint_mono _ _ (by omega)
          _ = l.length := divPoint_last _ _ hT'
      have h2 : divPoint l.length T t ≤ divPoint l.length T (t + 1) :=
        divPoint_mono _ _ (by omega)
      omega
    rw [hlen, chunk_size]
    by_cases h : t < l.length % T
    · right
      rw [if_pos h, ceil_div_eq _ _ hT' (by omega)]
    · left
      rw [if_neg h]
      exact Nat.add_zero _

/-- Witness for `array_split_partition`: splitting a 7-element list into
3 tasks reassembles to the original list. -/
theorem array_split_partition_witness :
    (npArraySplit [1, 2, 3, 4, 5, 6, 7] 3).flatten = [1, 2, 3, 4, 5, 6, 7] :=
  (array_split_partition [1, 2, 3, 4, 5, 6, 7] 3 (by decide)).2.1

lemma lexLe_cons (x y : Char) (xs ys : List Char) :
    lexLe (x :: xs) (y :: ys) =
      (decide (x.toNat < y.toNat) ||
        (decide (x.toNat = y.toNat) && lexLe xs ys)) := by
  show (if x.toNat < y.toNat then true
      else if x.toNat = y.toNat then lexLe xs ys else false) = _
  by_cases h1 : x.toNat < y.toNat
  · rw [if_pos h1]; simp [h1]
  · rw [if_neg h1]
    by_cases h2 : x.toNat = y.toNat
    · rw [if_pos h2]; simp [h1, h2]
    · rw [if_neg h2]; simp [h1, h2]

lemma lexLe_total : ∀ a b : List Char, (lexLe a b || lexLe b a) = true := by
  intro a
  induction a with
  | nil => intro b; simp [lexLe]
  | cons x xs ih =>
    intro b
    cases b with
    | nil => simp [lexLe]
    | cons y ys =>
      rw [lexLe_cons, lexLe_cons]
      simp only [Bool.or_eq_true, Bool.and_eq_true, decide_eq_true_eq]
      rcases lt_trichotomy x.toNat y.toNat with h | h | h
      · exact Or.inl (Or.inl h)
      · rcases (by simpa using ih ys :
            lexLe xs ys = true ∨ lexLe ys xs = true) with hr | hr
        · exact Or.inl (Or.inr ⟨h, hr⟩)
        · exact Or.inr (Or.inr ⟨h.symm, hr⟩)
      · exact Or.inr (Or.inl h)

lemma lexLe_trans : ∀ a b c : List Char,
    lexLe a b = true → lexLe b c = true → lexLe a c = true := by
  intro a
  induction a with
  | nil => intro b c _ _; simp [lexLe]
  | cons x xs ih =>
    intro b c hab hbc
    cases b with
    | nil => simp [lexLe] at hab
    | cons y ys =>
      cases c with
      | nil => simp [lexLe] at hbc
      | cons z zs =>
        rw [lexLe_cons] at hab hbc ⊢
        simp only [Bool.or_eq_true, Bool.and_eq_true, decide_eq_true_eq]
          at hab hbc ⊢
        rcases hab with h1 | ⟨h1, hrec1⟩ <;> rcases hbc with h2 | ⟨h2, hrec2⟩
        · exact Or.inl (by omega)
        · exact Or.inl (by omega)
        · exact Or.inl (by omega)
        · exact Or.inr ⟨by omega, ih ys zs hrec1 hrec2⟩

lemma find_files_none (walk : List (List Char × List (List Char))) :
    find_files walk none =
      (walk.flatMap fun e =>
        (e.2.filter endsWithHdf5).map fun f => osJoin e.1 f).mergeSort lexLe :=
  rfl

/-- Claim C5: `find_files` returns exactly the discovered files whose
name ends in `'hdf5'` (the script's expected source extension test),
joined to their directory, as a lexicographically sorted list; a
non-negative cap `N` truncates to the first `N` entries of that sorted
order. -/
theorem find_files_spec (walk : List (List Char × List (List Char))) :
    (find_files walk none).Perm
      (walk.flatMap fun e =>
        (e.2.filter endsWithHdf5).map fun f => osJoin e.1 f) ∧
    (find_files walk none).Pairwise (fun a b => lexLe a b = true) ∧
    (∀ N : Int, 0 ≤ N →
      find_files walk (some N) = (find_files walk none).take N.toNat) := by
  refine ⟨?_, ?_, ?_⟩
  · exact List.mergeSort_perm _ _
  · exact List.sorted_mergeSort lexLe_trans lexLe_total _
  · intro N hN
    rw [find_files_none]
    show pySliceTo _ _ = _
    unfold pySliceTo
    rw [if_pos hN]

/-- Witness for `find_files_spec`: a concrete walk with mixed
extensions, cap 2. -/
theorem find_files_spec_witness :
    find_files
      [("r".toList, ["b.hdf5".toList, "a.hdf5".toList, "c.txt".toList,
        "zhdf5".toList])] (some 2) =
      (find_files
        [("r".toList, ["b.hdf5".toList, "a.hdf5".toList, "c.txt".toList,
          "zhdf5".toList])] none).take (2 : Int).toNat :=
  (find_files_spec _).2.2 2 (by decide)

/-- Claim C9: a negative cap `m` is passed straight to the Python slice
`files[:m]`, which keeps all discovered sorted files except the last
`|m|` of them (clamped to the empty list when `|m|` exceeds the count),
rather than capping to a count or rejecting the argument. -/
theorem find_files_negative_cap (walk : List (List Char × List (List Char)))
    (k : Nat) (hk : 0 < k) :
    find_files walk (some (-(k : Int))) =
      (find_files walk none).take ((find_files walk none).length - k) := by
  rw [find_files_none]
  show pySliceTo _ _ = _
  unfold pySliceTo
  rw [if_neg (by omega)]
  congr 1
  omega

/-- Witness for `find_files_negative_cap`: dropping the last entry of a
concrete discovery. -/
theorem find_files_negative_cap_witness :
    find_files
      [("r".toList, ["b.hdf5".toList, "a.hdf5".toList, "zhdf5".toList])]
      (some (-((1 : Nat) : Int))) =
      (find_files
        [("r".toList, ["b.hdf5".toList, "a.hdf5".toList, "zhdf5".toList])]
        none).take
        ((find_files
          [("r".toList, ["b.hdf5".toList, "a.hdf5".toList, "zhdf5".toList])]
          none).length - 1) :=
  find_files_negative_cap _ 1 (by decide)

/-- Claim C7: the writes of `process_file` — output file names and
record contents — are a pure function of the input file's datasets and
the arguments: two runs whose filesystems agree on the processed file
produce identical write lists (names and contents), so re-running on an
unchanged source file reproduces byte-identical outputs. -/
theorem process_file_deterministic {α : Type}
    (env1 env2 : List Char → Option (Vol3 α × List α))
    (f od : List Char) (ss : Int) (h : env1 f = env2 f) :
    process_file env1 f od ss = process_file env2 f od ss := by
  unfold process_file
  rw [h]

/-- Witness for `process_file_deterministic`: two environments that
agree on `a.hdf5` but differ elsewhere. -/
theorem process_file_deterministic_witness :
    process_file
      (fun _ => some ((⟨2, 2, 2, fun i j k => i + j + k⟩ : Vol3 Nat), [7]))
      "a.hdf5".toList "o".toList 2 =
    process_file
      (fun p => if p = "a.hdf5".toList
        then some ((⟨2, 2, 2, fun i j k => i + j + k⟩ : Vol3 Nat), [7])
        else none)
      "a.hdf5".toList "o".toList 2 :=
  process_file_deterministic _ _ "a.hdf5".toList "o".toList 2 (by simp)

/-- Claim C8: encoding a sub-cube and a parameter vector into a record
and decoding the record returns exactly the flattened cube (field `x`)
and the parameter vector (field `y`); values are transported verbatim,
hence bit-identical for IEEE-754 payloads.  The cube is flattened in
row-major, last-axis-fastest order: position `p·(s1·s2) + q·s2 + r`
holds `data p q r`. -/
theorem record_roundtrip {α : Type} (xi : Vol3 α) (y : List α) :
    decodeExample (encodeExample xi y) = (some (flatten3 xi), some y) ∧
    (flatten3 xi).length = xi.shape0 * (xi.shape1 * xi.shape2) ∧
    (∀ p q r : Nat, p < xi.shape0 → q < xi.shape1 → r < xi.shape2 →
      (flatten3 xi)[p * (xi.shape1 * xi.shape2) + q * xi.shape2 + r]? =
        some (xi.data p q r)) := by
  refine ⟨?_, ?_, ?_⟩
  · simp [decodeExample, encodeExample, List.lookup]
  · unfold flatten3
    rw [length_flatMap_const _ _ (xi.shape1 * xi.shape2) (fun a _ => by
      rw [length_flatMap_const _ _ xi.shape2 (fun b _ => by
        rw [List.length_map, List.length_range]), List.length_range]),
      List.length_range]
  · intro p q r hp hq hr
    unfold flatten3
    have hqr : q * xi.shape2 + r < xi.shape1 * xi.shape2 := by
      calc q * xi.shape2 + r < q * xi.shape2 + xi.shape2 := add_lt_add_left hr _
        _ = (q + 1) * xi.shape2 := by ring
        _ ≤ xi.shape1 * xi.shape2 := mul_le_mul_right' (Nat.succ_le_of_lt hq) _
    rw [show p * (xi.shape1 * xi.shape2) + q * xi.shape2 + r =
        p * (xi.shape1 * xi.shape2) + (q * xi.shape2 + r) by ring]
    rw [flatMap_getElem? _ _ (xi.shape1 * xi.shape2) p (q * xi.shape2 + r)
      (fun a _ => by
        rw [length_flatMap_const _ _ xi.shape2 (fun b _ => by
          rw [List.length_map, List.length_range]), List.length_range])
      (by simpa using hp) hqr]
    rw [flatMap_getElem? _ _ xi.shape2 q r
      (fun a _ => by rw [List.length_map, List.length_range])
      (by simpa using hq) hr]
    rw [List.getElem?_map, List.getElem?_range hr, Option.map_some']
    rw [List.get_eq_getElem, List.get_eq_getElem, List.getElem_range,
      List.getElem_range]

/-- Witness for `record_roundtrip`: position `(1·2+0)·2+1` of the
flattened 2×2×2 cube holds `data 1 0 1`. -/
theorem record_roundtrip_witness :
    (flatten3 (⟨2, 2, 2, fun i j k => (i, j, k)⟩ : Vol3 (Nat × Nat × Nat)))[
        1 * (2 * 2) + 0 * 2 + 1]? =
      some ((⟨2, 2, 2, fun i j k => (i, j, k)⟩ :
        Vol3 (Nat × Nat × Nat)).data 1 0 1) :=
  (record_roundtrip _ ([] : List (Nat × Nat × Nat))).2.2 1 0 1
    (by decide) (by decide) (by decide)

lemma pyReplace_nil (old new : List Char) : pyReplace [] old new = [] := by
  rw [pyReplace]

lemma pyReplace_cons (c : Char) (rest old new : List Char) :
    pyReplace (c :: rest) old new =
      if old ≠ [] ∧ old.isPrefixOf (c :: rest) then
        new ++ pyReplace ((c :: rest).drop old.length) old new
      else c :: pyReplace rest old new := by
  rw [pyReplace]
  rfl

lemma digitChar_toNat (d : Nat) (h : d < 10) : (digitChar d).toNat = 48 + d := by
  interval_cases d <;> rfl

lemma natDecAux_foldl : ∀ (fuel n a : Nat), n ≤ fuel →
    (natDecAux fuel n).foldl (fun acc c => acc * 10 + (c.toNat - 48)) a =
      a * 10 ^ (natDecAux fuel n).length + n := by
  intro fuel
  induction fuel with
  | zero =>
    intro n a hn
    have hz : n = 0 := by omega
    subst hz
    simp [natDecAux]
  | succ fuel ih =>
    intro n a hn
    cases n with
    | zero => simp [natDecAux]
    | succ m =>
      rw [show natDecAux (fuel + 1) (m + 1) =
        natDecAux fuel ((m + 1) / 10) ++ [digitChar ((m + 1) % 10)] from rfl]
      rw [List.foldl_append]
      have hq : (m + 1) / 10 ≤ fuel := by
        have h1 : (m + 1) / 10 < m + 1 := Nat.div_lt_self (by omega) (by omega)
        omega
      rw [ih ((m + 1) / 10) a hq]
      simp only [List.foldl_cons, List.foldl_nil, List.length_append,
        List.length_cons, List.length_nil]
      rw [digitChar_toNat _ (Nat.mod_lt _ (by omega))]
      rw [show 48 + (m + 1) % 10 - 48 = (m + 1) % 10 by omega]
      have hmod : 10 * ((m + 1) / 10) + (m + 1) % 10 = m + 1 :=
        Nat.div_add_mod _ _
      have hfin : ∀ L : Nat,
          (a * 10 ^ L + (m + 1) / 10) * 10 + (m + 1) % 10 =
            a * 10 ^ (L + 1) + (m + 1) := by
        intro L
        rw [pow_succ]
        calc (a * 10 ^ L + (m + 1) / 10) * 10 + (m + 1) % 10
            = a * (10 ^ L * 10) + (10 * ((m + 1) / 10) + (m + 1) % 10) := by ring
          _ = a * (10 ^ L * 10) + (m + 1) := by rw [hmod]
      simpa using hfin (natDecAux fuel ((m + 1) / 10)).length

lemma padDecode_replicate (k : Nat) :
    (List.replicate k '0').foldl (fun acc c => acc * 10 + (c.toNat - 48)) 0 = 0 := by
  induction k with
  | zero => rfl
  | succ k ih =>
    rw [List.replicate_succ, List.foldl_cons]
    exact ih

lemma padDecode_pad3 (n : Nat) : padDecode (pad3 n) = n := by
  unfold padDecode pad3
  rw [List.foldl_append, padDecode_replicate]
  show (natDecAux n n).foldl _ 0 = n
  rw [natDecAux_foldl n n 0 (le_refl n)]
  simp

lemma pad3_inj {m n : Nat} (h : pad3 m = pad3 n) : m = n := by
  have h2 := congrArg padDecode h
  rwa [padDecode_pad3, padDecode_pad3] at h2

lemma natDecAux_digits : ∀ (fuel n : Nat), ∀ c ∈ natDecAux fuel n,
    48 ≤ c.toNat ∧ c.toNat ≤ 57 := by
  intro fuel
  induction fuel with
  | zero => intro n c hc; simp [natDecAux] at hc
  | succ fuel ih =>
    intro n c hc
    cases n with
    | zero => simp [natDecAux] at hc
    | succ m =>
      rw [show natDecAux (fuel + 1) (m + 1) =
        natDecAux fuel ((m + 1) / 10) ++ [digitChar ((m + 1) % 10)] from rfl] at hc
      rw [List.mem_append] at hc
      rcases hc with hc | hc
      · exact ih _ c hc
      · rw [List.mem_singleton] at hc
        subst hc
        rw [digitChar_toNat _ (Nat.mod_lt _ (by omega))]
        omega

lemma pad3_digits (n : Nat) : ∀ c ∈ pad3 n, 48 ≤ c.toNat ∧ c.toNat ≤ 57 := by
  intro c hc
  unfold pad3 at hc
  rw [List.mem_append] at hc
  rcases hc with hc | hc
  · have hz := List.eq_of_mem_replicate hc
    subst hz
    exact ⟨by decide, by decide⟩
  · exact natDecAux_digits n n c hc

lemma recordSuffixPrefixEq {i j : Nat}
    (h : recordSuffix i <+: recordSuffix j) : i = j := by
  unfold recordSuffix at h
  rw [List.cons_prefix_cons] at h
  obtain ⟨-, h⟩ := h
  obtain ⟨t, ht⟩ := h
  rcases Nat.lt_or_ge (pad3 i).length (pad3 j).length with hlt | hge
  · exfalso
    have hc := congrArg (fun l => l[(pad3 i).length]?) ht
    simp only at hc
    rw [List.getElem?_append_left (by
        rw [List.length_append]
        have : 0 < (".tfrecord".toList).length := by decide
        omega),
      List.getElem?_append_right (le_refl _)] at hc
    rw [Nat.sub_self] at hc
    rw [List.getElem?_append_left hlt] at hc
    -- hc : ".tfrecord".toList[0]? = (pad3 j)[(pad3 i).length]?
    have hdot : (".tfrecord".toList)[0]? = some '.' := by decide
    rw [hdot] at hc
    have hmem : '.' ∈ pad3 j := by
      have := List.getElem?_eq_some_iff.mp hc.symm
      obtain ⟨hb, hg⟩ := this
      exact hg ▸ List.getElem_mem hb
    have := pad3_digits j '.' hmem
    revert this
    decide
  · have heq : (pad3 i).length = (pad3 j).length := by
      have hlen := congrArg List.length ht
      simp only [List.length_append] at hlen
      omega
    have hpp : pad3 i = pad3 j := by
      have h2 := congrArg (fun l => l.take (pad3 i).length) ht
      simp only at h2
      rw [List.append_assoc] at h2
      rw [List.take_left] at h2
      rw [List.take_append_of_le_length (le_of_eq heq), heq,
        List.take_length] at h2
      exact h2
    exact pad3_inj hpp

lemma pyReplace_eq_new (old new : List Char) (hold : old ≠ []) :
    pyReplace old old new = new := by
  obtain ⟨o, os, rfl⟩ := List.exists_cons_of_ne_nil hold
  rw [pyReplace_cons,
    if_pos ⟨hold, List.isPrefixOf_iff_prefix.mpr (List.prefix_refl _)⟩]
  rw [List.drop_length, pyReplace_nil, List.append_nil]

lemma pyReplace_no_occ (s old new : List Char) (hold : old ≠ [])
    (h : containsSub s old = false) : pyReplace s old new = s := by
  induction s with
  | nil => exact pyReplace_nil _ _
  | cons c st ih =>
    rw [show containsSub (c :: st) old =
      (old.isPrefixOf (c :: st) || containsSub st old) from rfl] at h
    rw [Bool.or_eq_false_iff] at h
    rw [pyReplace_cons, if_neg (by
      intro hcontra
      rw [hcontra.2] at h
      exact Bool.noConfusion h.1)]
    rw [ih h.2]

lemma pyReplace_decomp (s old : List Char) (hold : old ≠ [])
    (hocc : containsSub s old = true) :
    ∃ p q, s = p ++ old ++ q ∧
      ∀ new, pyReplace s old new = p ++ new ++ pyReplace q old new := by
  induction s with
  | nil =>
    exfalso
    rw [show containsSub [] old = old.isEmpty from rfl] at hocc
    rw [List.isEmpty_iff] at hocc
    exact hold hocc
  | cons c rest ih =>
    by_cases hpre : old.isPrefixOf (c :: rest) = true
    · refine ⟨[], (c :: rest).drop old.length, ?_, ?_⟩
      · obtain ⟨t, ht⟩ := List.isPrefixOf_iff_prefix.mp hpre
        rw [List.nil_append, ← ht, List.drop_left]
      · intro new
        rw [pyReplace_cons, if_pos ⟨hold, hpre⟩, List.nil_append]
    · have hocc' : containsSub rest old = true := by
        rw [show containsSub (c :: rest) old =
          (old.isPrefixOf (c :: rest) || containsSub rest old) from rfl] at hocc
        rw [Bool.or_eq_true] at hocc
        rcases hocc with hocc | hocc
        · exact absurd hocc hpre
        · exact hocc
      obtain ⟨p, q, hs, heq⟩ := ih hocc'
      refine ⟨c :: p, q, by rw [List.cons_append, List.cons_append, ← hs], ?_⟩
      intro new
      rw [pyReplace_cons, if_neg (fun hcontra => hpre hcontra.2), heq new]
      rfl

lemma pyReplace_inj_recordSuffix (s : List Char)
    (hocc : containsSub s ".hdf5".toList = true) {i j : Nat}
    (h : pyReplace s ".hdf5".toList (recordSuffix i) =
      pyReplace s ".hdf5".toList (recordSuffix j)) : i = j := by
  obtain ⟨p, q, hs, heq⟩ := pyReplace_decomp s _ (by decide) hocc
  rw [heq (recordSuffix i), heq (recordSuffix j)] at h
  rw [List.append_assoc, List.append_assoc] at h
  have h2 := List.append_cancel_left h
  have hpi : recordSuffix i <+: recordSuffix j ∨
      recordSuffix j <+: recordSuffix i :=
    List.prefix_or_prefix_of_prefix ⟨_, h2⟩
      (List.prefix_append (recordSuffix j)
        (pyReplace q ".hdf5".toList (recordSuffix j)))
  rcases hpi with hp | hp
  · exact recordSuffixPrefixEq hp
  · exact (recordSuffixPrefixEq hp).symm

lemma pyReplace_append_hdf5 (stem new : List Char)
    (h : containsSub stem ".hdf5".toList = false) :
    pyReplace (stem ++ ".hdf5".toList) ".hdf5".toList new = stem ++ new := by
  induction stem with
  | nil =>
    rw [List.nil_append, List.nil_append]
    exact pyReplace_eq_new _ _ (by decide)
  | cons c st ih =>
    have hc : containsSub st ".hdf5".toList = false := by
      rw [show containsSub (c :: st) ".hdf5".toList =
        ((".hdf5".toList).isPrefixOf (c :: st) || containsSub st ".hdf5".toList)
        from rfl] at h
      exact (Bool.or_eq_false_iff.mp h).2
    rw [List.cons_append, pyReplace_cons]
    by_cases hpre : (".hdf5".toList).isPrefixOf (c :: (st ++ ".hdf5".toList)) = true
    · exfalso
      have hpre' : ".hdf5".toList <+: (c :: st) ++ ".hdf5".toList := by
        rw [List.cons_append]
        exact List.isPrefixOf_iff_prefix.mp hpre
      by_cases hL : 5 ≤ (c :: st).length
      · have hp2 : (".hdf5".toList).isPrefixOf (c :: st) = true := by
          rw [ List.isPrefixOf_iff_prefix, List.prefix_iff_eq_take]
          have h5 := List.prefix_iff_eq_take.mp hpre'
          rw [List.take_append_of_le_length (by
            show (".hdf5".toList).length ≤ _
            rw [show (".hdf5".toList).length = 5 from rfl]
            exact hL)] at h5
          exact h5
        rw [show containsSub (c :: st) ".hdf5".toList =
          ((".hdf5".toList).isPrefixOf (c :: st) || containsSub st ".hdf5".toList)
          from rfl, hp2] at h
        exact Bool.noConfusion h
      · push_neg at hL
        have h5 := List.prefix_iff_eq_take.mp hpre'
        rw [List.take_append_eq_append_take,
          List.take_of_length_le (by
            show (c :: st).length ≤ (".hdf5".toList).length
            rw [show (".hdf5".toList).length = 5 from rfl]
            omega)] at h5
        have hstem : c :: st = (".hdf5".toList).take (c :: st).length := by
          have h6 := congrArg (List.take (c :: st).length) h5
          rw [List.take_append_of_le_length (le_refl _), List.take_length] at h6
          exact h6.symm
        rw [hstem] at h5
        have hL1 : 1 ≤ (c :: st).length := by
          rw [List.length_cons]; omega
        rw [show (".hdf5".toList).length = 5 from rfl] at h5
        generalize hLdef : (c :: st).length = L at h5 hL hL1
        interval_cases L <;> exact absurd h5 (by decide)
    · rw [if_neg (fun hcontra => hpre hcontra.2), ih hc, List.cons_append]

lemma osJoin_inj (a b1 b2 : List Char) (hh : b1.head? = b2.head?)
    (h : osJoin a b1 = osJoin a b2) : b1 = b2 := by
  unfold osJoin at h
  by_cases h1 : b1.head? = some '/'
  · have h1' : b2.head? = some '/' := by rw [← hh]; exact h1
    rwa [if_pos h1, if_pos h1'] at h
  · have h1' : ¬ b2.head? = some '/' := by rw [← hh]; exact h1
    rw [if_neg h1, if_neg h1'] at h
    by_cases h2 : a = []
    · rwa [if_pos h2, if_pos h2] at h
    · rw [if_neg h2, if_neg h2] at h
      by_cases h3 : a.getLast? = some '/'
      · rw [if_pos h3, if_pos h3] at h
        exact List.append_cancel_left h
      · rw [if_neg h3, if_neg h3] at h
        have h4 := List.append_cancel_left h
        simpa using h4

/-- Claim C3 (amended): when the basename of the source file contains
`.hdf5` exactly once, as its final extension (the intended case), the
`idx`-th record is written to
`<output-dir>/<basename-without-extension>_<idx zero-padded to 3
digits>.tfrecord`; and whenever the basename contains `.hdf5` at all,
the naming is injective over the sub-cube indices of one source file.
As stated universally the claim is false — `str.replace('.hdf5', ...)`
is a no-op on a basename without the `.hdf5` substring (such as a
discovered file `universehdf5`), collapsing all indices to one name; see
the counterexample. -/
theorem output_file_name_spec (od f : List Char) :
    (∀ stem : List Char, osBasename f = stem ++ ".hdf5".toList →
      containsSub stem ".hdf5".toList = false →
      ∀ i : Nat,
        output_file_name od f i = osJoin od (stem ++ recordSuffix i)) ∧
    (containsSub (osBasename f) ".hdf5".toList = true →
      ∀ i j : Nat,
        output_file_name od f i = output_file_name od f j → i = j) := by
  constructor
  · intro stem hb hstem i
    unfold output_file_name
    rw [hb, pyReplace_append_hdf5 stem _ hstem]
  · intro hocc i j h
    unfold output_file_name at h
    have hhead :
        (pyReplace (osBasename f) ".hdf5".toList (recordSuffix i)).head? =
        (pyReplace (osBasename f) ".hdf5".toList (recordSuffix j)).head? := by
      obtain ⟨p, q, hs, heq⟩ := pyReplace_decomp _ _ (by decide) hocc
      rw [heq, heq]
      cases p with
      | nil => rfl
      | cons a p' => rfl
    exact pyReplace_inj_recordSuffix _ hocc (osJoin_inj od _ _ hhead h)

/-- Counterexample to claim C3 as universally stated: the source file
`data/universehdf5` is discovered by `find_files` (its name ends in
`hdf5`), but its basename contains no `.hdf5` substring, so
`str.replace` is a no-op and sub-cube indices 0 and 1 produce the same
output file name — the claimed pattern and injectivity both fail. -/
theorem output_file_name_counterexample :
    output_file_name "out".toList "data/universehdf5".toList 0 =
      output_file_name "out".toList "data/universehdf5".toList 1 ∧
    endsWithHdf5 "universehdf5".toList = true := by
  constructor
  · unfold output_file_name
    have hb : osBasename "data/universehdf5".toList =
        "universehdf5".toList := by decide
    rw [hb, pyReplace_no_occ _ _ _ (by decide) (by decide),
      pyReplace_no_occ _ _ _ (by decide) (by decide)]
  · decide

/-- Witness for `output_file_name_spec`: the usual case
`data/universe.hdf5`, sub-cube index 7. -/
theorem output_file_name_spec_witness :
    output_file_name "out".toList "data/universe.hdf5".toList 7 =
      osJoin "out".toList ("universe".toList ++ recordSuffix 7) :=
  (output_file_name_spec "out".toList "data/universe.hdf5".toList).1
    "universe".toList (by decide) (by decide) 7

lemma split_universe_neg {α : Type} (x : Vol3 α) (S : Int) (hS : S < 0) :
    split_universe x S = [] := by
  unfold split_universe
  dsimp only
  rw [fdiv_neg_toNat _ _ hS]
  simp

lemma process_file_neg {α : Type} (env : List Char → Option (Vol3 α × List α))
    (f od : List Char) (ss : Int) (hss : ss < 0) (henv : (env f).isSome) :
    process_file env f od ss = some [] := by
  obtain ⟨v, hv⟩ := Option.isSome_iff_exists.mp henv
  obtain ⟨x, y⟩ := v
  have hsu := split_universe_neg x ss hss
  simp [process_file, hv, hsu]

lemma mapM_process_file_neg {α : Type}
    (env : List Char → Option (Vol3 α × List α)) (od : List Char) (ss : Int)
    (hss : ss < 0) (henv : ∀ f, (env f).isSome) (l : List (List Char)) :
    (l.mapM fun f => process_file env f od ss) =
      some (l.map fun _ => ([] : List (List Char × TfExample α))) := by
  induction l with
  | nil => rfl
  | cons a t ih =>
    rw [List.mapM_cons, process_file_neg env a od ss hss (henv a), ih]
    rfl

lemma main_run_neg_sample {α : Type}
    (walk : List (List Char × List (List Char)))
    (env : List Char → Option (Vol3 α × List α)) (args : Args)
    (hss : args.sample_size < 0) (htasks : 1 ≤ args.n_tasks)
    (htask0 : 0 ≤ args.task) (htask1 : args.task < args.n_tasks)
    (hworkers : 1 ≤ args.n_workers) (henv : ∀ f, (env f).isSome) :
    main_run walk env args = some [] := by
  unfold main_run
  rw [if_neg (by omega)]
  have hlen : (npArraySplit (find_files walk args.max_files)
      args.n_tasks.toNat).length = args.n_tasks.toNat := by
    rw [npArraySplit, List.length_map, List.length_range]
  have hjlt : args.task < ((npArraySplit (find_files walk args.max_files)
      args.n_tasks.toNat).length : Int) := by
    rw [hlen, Int.toNat_of_nonneg (by omega)]
    exact htask1
  unfold pyIndex
  dsimp only
  rw [if_pos htask0, if_pos ⟨htask0, hjlt⟩]
  rw [List.getElem?_eq_getElem (by
    rw [hlen]
    omega)]
  dsimp only
  rw [if_neg (by omega)]
  rw [mapM_process_file_neg env args.output_dir args.sample_size hss henv _]
  simp [List.flatten_eq_nil_iff]

lemma main_run_bad_workers {α : Type}
    (walk : List (List Char × List (List Char)))
    (env : List Char → Option (Vol3 α × List α)) (args : Args)
    (hworkers : args.n_workers < 1) :
    main_run walk env args = none := by
  unfold main_run
  by_cases ht : args.n_tasks ≤ 0
  · rw [if_pos ht]
  · rw [if_neg ht]
    dsimp only
    cases hpy : pyIndex (npArraySplit (find_files walk args.max_files)
        args.n_tasks.toNat) args.task with
    | none => rfl
    | some c =>
      dsimp only
      rw [if_pos hworkers]

/-- Claim C6 (amended): `parse_args` applies no validation beyond
argparse's integer parsing, so a negative `--sample-size` is accepted —
it is not an invalid combination to this program.  With readable inputs
and an in-range `(task, n_tasks)` pair, the run's fate is decided by the
worker pool, not the sample size: with at least one worker the run
completes cleanly (exit zero, "All done!" logged) and writes no output
files, while `n_workers < 1` aborts with the `ValueError` raised by
`mp.Pool` on line 109 (non-zero exit).  Startup failures occur only for
values argparse itself rejects (non-integer strings, unknown flags) or
for the `ValueError`/`IndexError` raised by `np.array_split`, chunk
indexing and `mp.Pool` — never for a negative sample size. -/
theorem negative_sample_size_accepted {α : Type}
    (walk : List (List Char × List (List Char)))
    (env : List Char → Option (Vol3 α × List α)) (args : Args)
    (hss : args.sample_size < 0) (htasks : 1 ≤ args.n_tasks)
    (htask0 : 0 ≤ args.task) (htask1 : args.task < args.n_tasks)
    (henv : ∀ f, (env f).isSome) :
    (1 ≤ args.n_workers → main_run walk env args = some []) ∧
    (args.n_workers < 1 → main_run walk env args = none) :=
  ⟨fun hw => main_run_neg_sample walk env args hss htasks htask0 htask1 hw henv,
   fun hw => main_run_bad_workers walk env args hw⟩

/-- Counterexample to claim C6 as stated: with `--sample-size -128` and
default task settings on a readable input, the program does not fail at
startup with an `ArgumentError`; it runs to completion, exits zero, and
writes nothing. -/
theorem negative_sample_size_no_error :
    main_run [("r".toList, ["a.hdf5".toList])]
      (fun _ => some ((⟨256, 256, 256, fun _ _ _ => (0 : Nat)⟩ : Vol3 Nat), [1]))
      { output_dir := "o".toList, verbose := false, sample_size := -128,
        max_files := none, n_workers := 1, task := 0, n_tasks := 1 } =
      some [] :=
  main_run_neg_sample [("r".toList, ["a.hdf5".toList])]
    (fun _ => some ((⟨256, 256, 256, fun _ _ _ => (0 : Nat)⟩ : Vol3 Nat), [1]))
    { output_dir := "o".toList, verbose := false, sample_size := -128,
      max_files := none, n_workers := 1, task := 0, n_tasks := 1 }
    (by decide) (by decide) (by decide) (by decide) (by decide) (fun _ => rfl)

/-- Witness for `negative_sample_size_accepted`: a different concrete
run, `--sample-size -7`, two tasks, task index 1, two workers. -/
theorem negative_sample_size_accepted_witness :
    main_run [("d".toList, ["b.hdf5".toList, "c.hdf5".toList])]
      (fun _ => some ((⟨64, 64, 64, fun _ _ _ => (0 : Nat)⟩ : Vol3 Nat), [2]))
      { output_dir := "w".toList, verbose := true, sample_size := -7,
        max_files := some 5, n_workers := 2, task := 1, n_tasks := 2 } =
      some [] :=
  (negative_sample_size_accepted [("d".toList, ["b.hdf5".toList, "c.hdf5".toList])]
    (fun _ => some ((⟨64, 64, 64, fun _ _ _ => (0 : Nat)⟩ : Vol3 Nat), [2]))
    { output_dir := "w".toList, verbose := true, sample_size := -7,
      max_files := some 5, n_workers := 2, task := 1, n_tasks := 2 }
    (by decide) (by decide) (by decide) (by decide) (fun _ => rfl)).1 (by decide)

end CosmoPrep